import Mathlib

/-!
Verification of the chunking core of the rag-document-qa repository.

The embedded program is `chunk_text` from `src/chunker.py`: it validates
`chunk_overlap < chunk_size`, then slides a window of `chunk_size`
characters across each page's text, snapping the window end back to the
last newline or ". " occurrence when that break point lies past half the
window, emits the stripped candidate together with provenance metadata
and a global chunk counter, and advances the cursor to `end - overlap`.

Strings are modelled as `List Char`; Python slicing (including its
negative-index wrap-around), `str.rfind` and `str.strip` are modelled
explicitly.  The `while` loop is modelled with an explicit fuel
parameter; exhausting the fuel yields `none`, which models divergence
(the Python loop not returning).  The float comparison
`break_point > chunk_size * 0.5` is exact for the integer ranges in
play and is rendered as `2 * break_point > chunk_size`.
-/

/-- Python index clamping for slice bounds: a negative index counts from
the end of the string (clamped below by 0), a non-negative one is clamped
above by the length. -/
def pyIdx (n : ℕ) (i : ℤ) : ℕ :=
  if i < 0 then (i + n).toNat else min i.toNat n

/-- Python slice `s[a:b]` on a list of characters. -/
def pySlice (s : List Char) (a b : ℤ) : List Char :=
  (s.take (pyIdx s.length b)).drop (pyIdx s.length a)

/-- Python's per-character whitespace test (`Py_UNICODE_ISSPACE`), the
set of characters `str.strip()` removes: tab, newline, vertical tab,
form feed, carriage return (U+0009..U+000D), the separator controls
U+001C..U+001F, space, next line U+0085, no-break space U+00A0, Ogham
space mark U+1680, the Unicode space separators U+2000..U+200A, line and
paragraph separators U+2028/U+2029, narrow no-break space U+202F, medium
mathematical space U+205F, and ideographic space U+3000. -/
def pyIsSpace (c : Char) : Bool :=
  (9 ≤ c.toNat && c.toNat ≤ 13) || (28 ≤ c.toNat && c.toNat ≤ 32) ||
  c.toNat = 133 || c.toNat = 160 || c.toNat = 5760 ||
  (8192 ≤ c.toNat && c.toNat ≤ 8202) || c.toNat = 8232 || c.toNat = 8233 ||
  c.toNat = 8239 || c.toNat = 8287 || c.toNat = 12288

/-- Python `str.strip()`: remove leading and trailing whitespace
(the characters of `pyIsSpace`). -/
def pyStrip (s : List Char) : List Char :=
  ((s.dropWhile pyIsSpace).reverse.dropWhile pyIsSpace).reverse

/-- `pat` occurs in `s` starting at position `k` (the reading of a
successful `s.find`/`s.rfind` hit at `k`). -/
def occursAt (pat s : List Char) (k : ℕ) : Prop :=
  (s.drop k).take pat.length = pat

instance (pat s : List Char) (k : ℕ) : Decidable (occursAt pat s k) :=
  inferInstanceAs (Decidable ((s.drop k).take pat.length = pat))

/-- Scan positions `n, n-1, ..., 0` for the last occurrence of `pat`,
returning `-1` when there is none: the implementation of Python
`str.rfind`. -/
def rfindFrom (s pat : List Char) : ℕ → ℤ
  | 0 => if (s.take pat.length) = pat then 0 else -1
  | n + 1 =>
    if ((s.drop (n + 1)).take pat.length) = pat then ((n + 1 : ℕ) : ℤ)
    else rfindFrom s pat n

/-- Python `s.rfind(pat)`: offset of the last occurrence of `pat` in `s`,
`-1` when absent. -/
def rfind (s pat : List Char) : ℤ := rfindFrom s pat s.length

/-- A break opportunity at offset `k`: a newline, or a period followed by
a space (the two patterns `chunk_text` searches with `rfind`). -/
def breakAt (s : List Char) (k : ℕ) : Prop :=
  occursAt ['\n'] s k ∨ occursAt ['.', ' '] s k

instance (s : List Char) (k : ℕ) : Decidable (breakAt s k) :=
  inferInstanceAs (Decidable (_ ∨ _))

/-- Specification-side description of `break_point`: `bp` is the offset
of the last break opportunity in `s`, or `-1` when `s` has none.  (The
maximum of the last-newline and last-". " offsets, each `-1` when absent,
is exactly the last offset at which either occurs.) -/
def IsLastBreak (s : List Char) (bp : ℤ) : Prop :=
  (bp = -1 ∧ ∀ k ≤ s.length, ¬ breakAt s k) ∨
  (0 ≤ bp ∧ breakAt s bp.toNat ∧ ∀ k ≤ s.length, bp < (k : ℤ) → ¬ breakAt s k)

instance (s : List Char) (bp : ℤ) : Decidable (IsLastBreak s bp) :=
  inferInstanceAs (Decidable (_ ∨ _))

/-- One page record, as produced by `document_loader.load_pdf`. -/
structure Page where
  text : List Char
  source : String
  page_number : ℕ
  deriving DecidableEq, Repr

/-- One chunk record, as produced by `chunk_text`. -/
structure Chunk where
  text : List Char
  source : String
  page_number : ℕ
  chunk_index : ℕ
  deriving DecidableEq, Repr

/-- One loop iteration's data: the cursor `start`, the (post-snapping)
window end `stop`, the untrimmed candidate `cand`, whether snapping was
applied, and the emitted chunk record. -/
structure Emit where
  start : ℤ
  stop : ℤ
  cand : List Char
  snapped : Bool
  chunk : Chunk
  deriving DecidableEq, Repr

/-- `break_point = max(last_newline, last_period)` of `chunk_text`,
computed on the candidate slice with `rfind`. -/
def breakPoint (cand : List Char) : ℤ :=
  max (rfind cand ['\n']) (rfind cand ['.', ' '])

/-- One iteration of the window body of `chunk_text` (without the cursor
update): compute `end = start + chunk_size`, slice the candidate
`text[start:end]`, and if `end < len(text)` snap to
`candidate = text[start : start + break_point + 1]`,
`end = start + break_point + 1` whenever
`break_point > chunk_size * 0.5` (rendered `2 * bp > cs`).  Returns the
candidate, the final `end`, and whether snapping happened. -/
def windowStep (cs : ℕ) (text : List Char) (start : ℤ) : List Char × ℤ × Bool :=
  if start + (cs : ℤ) < (text.length : ℤ) then
    if 2 * breakPoint (pySlice text start (start + (cs : ℤ))) > (cs : ℤ) then
      (pySlice text start (start + breakPoint (pySlice text start (start + (cs : ℤ))) + 1),
       start + breakPoint (pySlice text start (start + (cs : ℤ))) + 1, true)
    else (pySlice text start (start + (cs : ℤ)), start + (cs : ℤ), false)
  else (pySlice text start (start + (cs : ℤ)), start + (cs : ℤ), false)

/-- The per-page `while start < len(text)` loop of `chunk_text`, with
explicit fuel; `none` models divergence.  Each iteration records the full
`Emit` data; the emitted chunk carries the stripped candidate, the page's
`source` and `page_number`, and the global counter `idx`. -/
def chunkPageAux (cs ov : ℕ) (text : List Char) (src : String) (pn : ℕ) :
    ℕ → ℤ → ℕ → Option (List Emit × ℕ)
  | 0, _, _ => none
  | fuel + 1, start, idx =>
    if start < (text.length : ℤ) then
      let w := windowStep cs text start
      match chunkPageAux cs ov text src pn fuel (w.2.1 - (ov : ℤ)) (idx + 1) with
      | none => none
      | some (es, n) =>
        some (⟨start, w.2.1, w.1, w.2.2,
               ⟨pyStrip w.1, src, pn, idx⟩⟩ :: es, n)
    else some ([], idx)

/-- The page loop of `chunk_text`: pages in order, threading the global
chunk counter; each page's iterations are kept grouped with their page. -/
def chunkPagesAux (cs ov fuel : ℕ) : List Page → ℕ → Option (List (Page × List Emit) × ℕ)
  | [], idx => some ([], idx)
  | p :: ps, idx =>
    match chunkPageAux cs ov p.text p.source p.page_number fuel 0 idx with
    | none => none
    | some (es, idx2) =>
      match chunkPagesAux cs ov fuel ps idx2 with
      | none => none
      | some (gs, idx3) => some ((p, es) :: gs, idx3)

/-- The chunk records of a grouped run, in output order. -/
def chunksOf (groups : List (Page × List Emit)) : List Chunk :=
  (groups.map fun g => g.2.map Emit.chunk).flatten

/-- `chunk_text(pages, chunk_size, chunk_overlap)`: raises
`ValueError("chunk_overlap must be less than chunk_size")` when
`chunk_overlap >= chunk_size`, otherwise runs the page loop.  `.ok none`
models the loop not terminating within `fuel` iterations per page. -/
def chunk_text (pages : List Page) (cs ov fuel : ℕ) : Except String (Option (List Chunk)) :=
  if cs ≤ ov then .error "chunk_overlap must be less than chunk_size"
  else
    match chunkPagesAux cs ov fuel pages 0 with
    | none => .ok none
    | some (gs, _) => .ok (some (chunksOf gs))

/-- Concrete two-page input used by verification witnesses. -/
def pagesW : List Page := [⟨['a', 'b', 'c', 'd'], "s", 1⟩, ⟨['x', 'y'], "s", 2⟩]

/-- The grouped result of `chunkPagesAux 3 1 5 pagesW 0`, used by
verification witnesses. -/
def groupsW : List (Page × List Emit) :=
  [(⟨['a', 'b', 'c', 'd'], "s", 1⟩,
    [⟨0, 3, ['a', 'b', 'c'], false, ⟨['a', 'b', 'c'], "s", 1, 0⟩⟩,
     ⟨2, 5, ['c', 'd'], false, ⟨['c', 'd'], "s", 1, 1⟩⟩]),
   (⟨['x', 'y'], "s", 2⟩,
    [⟨0, 3, ['x', 'y'], false, ⟨['x', 'y'], "s", 2, 2⟩⟩])]

/-- The emits of `chunkPageAux 3 1 ['a',...,'g'] "s" 1 6 0 0` (a
four-chunk single-page run), used by verification witnesses. -/
def emitsW : List Emit :=
  [⟨0, 3, ['a', 'b', 'c'], false, ⟨['a', 'b', 'c'], "s", 1, 0⟩⟩,
   ⟨2, 5, ['c', 'd', 'e'], false, ⟨['c', 'd', 'e'], "s", 1, 1⟩⟩,
   ⟨4, 7, ['e', 'f', 'g'], false, ⟨['e', 'f', 'g'], "s", 1, 2⟩⟩,
   ⟨6, 9, ['g'], false, ⟨['g'], "s", 1, 3⟩⟩]

/-- The emits of `chunkPageAux 3 1 ['a','b','c','d','e'] "s" 1 6 0 0`
(a three-chunk run whose last two windows overrun the page end), used by
verification witnesses. -/
def emitsV : List Emit :=
  [⟨0, 3, ['a', 'b', 'c'], false, ⟨['a', 'b', 'c'], "s", 1, 0⟩⟩,
   ⟨2, 5, ['c', 'd', 'e'], false, ⟨['c', 'd', 'e'], "s", 1, 1⟩⟩,
   ⟨4, 7, ['e'], false, ⟨['e'], "s", 1, 2⟩⟩]

/-! ### Lemmas about the slicing and searching primitives -/

lemma pyIdx_le (n : ℕ) (i : ℤ) : pyIdx n i ≤ n := by
  unfold pyIdx; split <;> omega

lemma pyIdx_nonneg_le (n : ℕ) {i : ℤ} (h0 : 0 ≤ i) (h1 : i ≤ (n : ℤ)) :
    pyIdx n i = i.toNat := by
  unfold pyIdx; rw [if_neg (by omega)]; omega

lemma pyIdx_nonneg_ge (n : ℕ) {i : ℤ} (h0 : 0 ≤ i) (h1 : (n : ℤ) ≤ i) :
    pyIdx n i = n := by
  unfold pyIdx; rw [if_neg (by omega)]; omega

lemma pySlice_length (s : List Char) (a b : ℤ) :
    (pySlice s a b).length = pyIdx s.length b - pyIdx s.length a := by
  unfold pySlice
  rw [List.length_drop, List.length_take]
  have := pyIdx_le s.length b
  omega

lemma pySlice_window_length {text : List Char} {start : ℤ} {cs : ℕ}
    (h0 : 0 ≤ start) (h : start + (cs : ℤ) ≤ (text.length : ℤ)) :
    (pySlice text start (start + (cs : ℤ))).length = cs := by
  rw [pySlice_length, pyIdx_nonneg_le _ (by omega) h, pyIdx_nonneg_le _ h0 (by omega)]
  omega

lemma dropWhile_eq_self_of (p : Char → Bool) (l : List Char)
    (h : ∀ c ∈ l, p c = false) : l.dropWhile p = l := by
  cases l with
  | nil => rfl
  | cons a l =>
    rw [List.dropWhile_cons, if_neg]
    simp [h a (by simp)]

lemma pyStrip_eq_self {l : List Char} (h : ∀ c ∈ l, pyIsSpace c = false) :
    pyStrip l = l := by
  unfold pyStrip
  rw [dropWhile_eq_self_of _ _ h, dropWhile_eq_self_of, List.reverse_reverse]
  intro c hc
  exact h c (List.mem_reverse.mp hc)

lemma occursAt_lt_length {pat s : List Char} {k : ℕ} (hp : pat ≠ [])
    (h : occursAt pat s k) : k < s.length := by
  by_contra hk
  push_neg at hk
  unfold occursAt at h
  rw [List.drop_eq_nil_of_le hk] at h
  simp at h
  exact hp h

lemma occursAt_mem {pat s : List Char} {k : ℕ} (h : occursAt pat s k)
    {c : Char} (hc : c ∈ pat) : c ∈ s := by
  unfold occursAt at h
  rw [← h] at hc
  exact List.Sublist.mem hc ((List.take_sublist _ _).trans (List.drop_sublist _ _))

lemma rfindFrom_zero (s pat : List Char) :
    rfindFrom s pat 0 = if s.take pat.length = pat then 0 else -1 := rfl

lemma rfindFrom_succ (s pat : List Char) (n : ℕ) :
    rfindFrom s pat (n + 1) =
      if (s.drop (n + 1)).take pat.length = pat then ((n + 1 : ℕ) : ℤ)
      else rfindFrom s pat n := rfl

lemma occursAt_iff {pat s : List Char} {k : ℕ} :
    occursAt pat s k ↔ (s.drop k).take pat.length = pat := Iff.rfl

lemma rfindFrom_spec (s pat : List Char) (n : ℕ) :
    (rfindFrom s pat n = -1 ∧ ∀ k ≤ n, ¬ occursAt pat s k) ∨
    (∃ m : ℕ, m ≤ n ∧ rfindFrom s pat n = (m : ℤ) ∧ occursAt pat s m ∧
      ∀ k ≤ n, (m : ℤ) < (k : ℤ) → ¬ occursAt pat s k) := by
  induction n with
  | zero =>
    by_cases h : occursAt pat s 0
    · right
      refine ⟨0, le_refl 0, ?_, h, by intro k hk hlt; omega⟩
      have h' : s.take pat.length = pat := by
        rw [occursAt_iff, List.drop_zero] at h
        exact h
      rw [rfindFrom_zero, if_pos h']
      norm_num
    · left
      refine ⟨?_, ?_⟩
      · have h' : ¬ s.take pat.length = pat := by
          intro hc
          apply h
          rw [occursAt_iff, List.drop_zero]
          exact hc
        rw [rfindFrom_zero, if_neg h']
      · intro k hk
        have : k = 0 := by omega
        subst this
        exact h
  | succ n ih =>
    by_cases h : occursAt pat s (n + 1)
    · right
      refine ⟨n + 1, le_refl _, ?_, h, by intro k hk hlt; omega⟩
      rw [rfindFrom_succ, if_pos (occursAt_iff.mp h)]
    · have hstep : rfindFrom s pat (n + 1) = rfindFrom s pat n := by
        rw [rfindFrom_succ, if_neg (fun hc => h (occursAt_iff.mpr hc))]
      rcases ih with ⟨h1, h2⟩ | ⟨m, hm, he, ho, hl⟩
      · left
        refine ⟨by rw [hstep]; exact h1, ?_⟩
        intro k hk
        by_cases hk2 : k ≤ n
        · exact h2 k hk2
        · have : k = n + 1 := by omega
          subst this
          exact h
      · right
        refine ⟨m, by omega, by rw [hstep]; exact he, ho, ?_⟩
        intro k hk hlt
        by_cases hk2 : k ≤ n
        · exact hl k hk2 hlt
        · have : k = n + 1 := by omega
          subst this
          exact h

lemma breakAt_lt_length {s : List Char} {k : ℕ} (h : breakAt s k) : k < s.length := by
  cases h with
  | inl h => exact occursAt_lt_length (by simp) h
  | inr h => exact occursAt_lt_length (by simp) h

lemma breakPoint_isLastBreak (s : List Char) : IsLastBreak s (breakPoint s) := by
  have h1 := rfindFrom_spec s ['\n'] s.length
  have h2 := rfindFrom_spec s ['.', ' '] s.length
  unfold breakPoint rfind IsLastBreak breakAt
  rcases h1 with ⟨e1, n1⟩ | ⟨m1, hm1, e1, o1, l1⟩ <;>
    rcases h2 with ⟨e2, n2⟩ | ⟨m2, hm2, e2, o2, l2⟩
  · left
    rw [e1, e2]
    exact ⟨by norm_num, fun k hk hb => hb.elim (n1 k hk) (n2 k hk)⟩
  · right
    rw [e1, e2]
    have hmax : max (-1 : ℤ) (m2 : ℤ) = (m2 : ℤ) := by omega
    rw [hmax]
    refine ⟨by omega, by simpa using Or.inr o2, ?_⟩
    intro k hk hlt hb
    rcases hb with hb | hb
    · exact n1 k hk hb
    · exact l2 k hk (by omega) hb
  · right
    rw [e1, e2]
    have hmax : max (m1 : ℤ) (-1 : ℤ) = (m1 : ℤ) := by omega
    rw [hmax]
    refine ⟨by omega, by simpa using Or.inl o1, ?_⟩
    intro k hk hlt hb
    rcases hb with hb | hb
    · exact l1 k hk (by omega) hb
    · exact n2 k hk hb
  · right
    rw [e1, e2]
    refine ⟨by omega, ?_, ?_⟩
    · rcases le_total (m1 : ℤ) (m2 : ℤ) with hle | hle
      · have hmax : max (m1 : ℤ) (m2 : ℤ) = (m2 : ℤ) := by omega
        rw [hmax]
        simpa using Or.inr o2
      · have hmax : max (m1 : ℤ) (m2 : ℤ) = (m1 : ℤ) := by omega
        rw [hmax]
        simpa using Or.inl o1
    · intro k hk hlt hb
      rcases hb with hb | hb
      · exact l1 k hk (by omega) hb
      · exact l2 k hk (by omega) hb

lemma windowStep_cand (cs : ℕ) (text : List Char) (start : ℤ) :
    (windowStep cs text start).1 = pySlice text start (windowStep cs text start).2.1 := by
  unfold windowStep
  split
  · split
    · rfl
    · rfl
  · rfl

lemma windowStep_not_snapped {cs : ℕ} {text : List Char} {start : ℤ}
    (h : (windowStep cs text start).2.2 = false) :
    (windowStep cs text start).2.1 = start + (cs : ℤ) := by
  revert h
  unfold windowStep
  split
  · split
    · intro h
      simp at h
    · intro _
      rfl
  · intro _
    rfl

lemma windowStep_progress {cs ov : ℕ} (text : List Char) (start : ℤ)
    (h1 : 1 ≤ cs) (h2 : 2 * ov ≤ cs) :
    start + (ov : ℤ) < (windowStep cs text start).2.1 := by
  unfold windowStep
  split
  · split
    · rename_i hsnap
      dsimp only
      omega
    · dsimp only
      omega
  · dsimp only
    omega

lemma windowStep_snapped {cs : ℕ} {text : List Char} {start : ℤ}
    (h0 : 0 ≤ start) (h : (windowStep cs text start).2.2 = true) :
    start + (cs : ℤ) < (text.length : ℤ) ∧
      start < (windowStep cs text start).2.1 ∧
      (windowStep cs text start).2.1 ≤ start + (cs : ℤ) := by
  revert h
  unfold windowStep
  split
  · split
    · intro _
      rename_i hlt hsnap
      dsimp only
      have hlb := breakPoint_isLastBreak (pySlice text start (start + (cs : ℤ)))
      set bp := breakPoint (pySlice text start (start + (cs : ℤ))) with hbp
      rcases hlb with ⟨he, -⟩ | ⟨hge, hat, -⟩
      · omega
      · have hlen : bp.toNat < (pySlice text start (start + (cs : ℤ))).length :=
          breakAt_lt_length hat
        rw [pySlice_window_length h0 (by omega)] at hlen
        refine ⟨by assumption, by omega, by omega⟩
    · intro h
      simp at h
  · intro h
    simp at h

lemma isLastBreak_unique {s : List Char} {a b : ℤ}
    (ha : IsLastBreak s a) (hb : IsLastBreak s b) : a = b := by
  rcases ha with ⟨ea, na⟩ | ⟨ha0, hba, hla⟩ <;> rcases hb with ⟨eb, nb⟩ | ⟨hb0, hbb, hlb⟩
  · rw [ea, eb]
  · exact absurd hbb (na b.toNat (le_of_lt (breakAt_lt_length hbb)))
  · exact absurd hba (nb a.toNat (le_of_lt (breakAt_lt_length hba)))
  · by_contra hne
    rcases lt_or_gt_of_ne hne with h | h
    · exact hla b.toNat (le_of_lt (breakAt_lt_length hbb)) (by omega) hbb
    · exact hlb a.toNat (le_of_lt (breakAt_lt_length hba)) (by omega) hba

/-! ### Lemmas about the per-page loop -/

lemma chunkPageAux_zero (cs ov : ℕ) (t : List Char) (src : String) (pn : ℕ)
    (s : ℤ) (i : ℕ) : chunkPageAux cs ov t src pn 0 s i = none := rfl

lemma chunkPageAux_stop {cs ov : ℕ} {t : List Char} {src : String} {pn : ℕ}
    {fuel : ℕ} {s : ℤ} {i : ℕ} (h : ¬ s < (t.length : ℤ)) :
    chunkPageAux cs ov t src pn (fuel + 1) s i = some ([], i) := by
  unfold chunkPageAux
  rw [if_neg h]

lemma chunkPageAux_go {cs ov : ℕ} {t : List Char} {src : String} {pn : ℕ}
    {fuel : ℕ} {s : ℤ} {i : ℕ} (h : s < (t.length : ℤ)) :
    chunkPageAux cs ov t src pn (fuel + 1) s i =
      match chunkPageAux cs ov t src pn fuel ((windowStep cs t s).2.1 - (ov : ℤ)) (i + 1) with
      | none => none
      | some (es, n) =>
        some (⟨s, (windowStep cs t s).2.1, (windowStep cs t s).1, (windowStep cs t s).2.2,
               ⟨pyStrip (windowStep cs t s).1, src, pn, i⟩⟩ :: es, n) := by
  conv_lhs => unfold chunkPageAux
  rw [if_pos h]

lemma chunkPageAux_cases {cs ov : ℕ} {t : List Char} {src : String} {pn : ℕ}
    {fuel : ℕ} {s : ℤ} {i : ℕ} {es : List Emit} {n : ℕ}
    (h : chunkPageAux cs ov t src pn (fuel + 1) s i = some (es, n)) :
    (¬ s < (t.length : ℤ) ∧ es = [] ∧ n = i) ∨
    (s < (t.length : ℤ) ∧ ∃ es',
      chunkPageAux cs ov t src pn fuel ((windowStep cs t s).2.1 - (ov : ℤ)) (i + 1) =
        some (es', n) ∧
      es = ⟨s, (windowStep cs t s).2.1, (windowStep cs t s).1, (windowStep cs t s).2.2,
             ⟨pyStrip (windowStep cs t s).1, src, pn, i⟩⟩ :: es') := by
  by_cases hlt : s < (t.length : ℤ)
  · right
    refine ⟨hlt, ?_⟩
    rw [chunkPageAux_go hlt] at h
    cases hrec : chunkPageAux cs ov t src pn fuel ((windowStep cs t s).2.1 - (ov : ℤ)) (i + 1) with
    | none =>
      rw [hrec] at h
      simp at h
    | some v =>
      obtain ⟨es', n'⟩ := v
      rw [hrec] at h
      simp only [Option.some.injEq, Prod.mk.injEq] at h
      obtain ⟨h1, h2⟩ := h
      subst h2
      exact ⟨es', hrec ▸ rfl, h1.symm⟩
  · left
    rw [chunkPageAux_stop hlt] at h
    simp only [Option.some.injEq, Prod.mk.injEq] at h
    exact ⟨hlt, h.1.symm, h.2.symm⟩

lemma chunkPageAux_head {cs ov : ℕ} {t : List Char} {src : String} {pn : ℕ}
    {fuel : ℕ} {s : ℤ} {i : ℕ} {e : Emit} {es : List Emit} {n : ℕ}
    (h : chunkPageAux cs ov t src pn fuel s i = some (e :: es, n)) :
    e.start = s := by
  cases fuel with
  | zero => simp [chunkPageAux_zero] at h
  | succ fuel =>
    rcases chunkPageAux_cases h with ⟨-, habs, -⟩ | ⟨-, es', -, hcons⟩
    · simp at habs
    · rw [List.cons.injEq] at hcons
      rw [hcons.1]

lemma chunkPageAux_shape {cs ov : ℕ} {t : List Char} {src : String} {pn : ℕ} :
    ∀ {fuel : ℕ} {s : ℤ} {i : ℕ} {es : List Emit} {n : ℕ},
      chunkPageAux cs ov t src pn fuel s i = some (es, n) →
      ∀ e ∈ es, e.start < (t.length : ℤ) ∧
        e.stop = (windowStep cs t e.start).2.1 ∧
        e.cand = (windowStep cs t e.start).1 ∧
        e.snapped = (windowStep cs t e.start).2.2 ∧
        e.chunk = ⟨pyStrip e.cand, src, pn, e.chunk.chunk_index⟩ := by
  intro fuel
  induction fuel with
  | zero =>
    intro s i es n h
    simp [chunkPageAux_zero] at h
  | succ fuel ih =>
    intro s i es n h
    rcases chunkPageAux_cases h with ⟨-, he, -⟩ | ⟨hlt, es', hrec, hcons⟩
    · subst he
      intro e he
      simp at he
    · subst hcons
      intro e he
      rcases List.mem_cons.mp he with rfl | hmem
      · exact ⟨hlt, rfl, rfl, rfl, rfl⟩
      · exact ih hrec e hmem

lemma chunkPageAux_nonneg {cs ov : ℕ} (h1 : 1 ≤ cs) (h2 : 2 * ov ≤ cs)
    {t : List Char} {src : String} {pn : ℕ} :
    ∀ {fuel : ℕ} {s : ℤ} {i : ℕ} {es : List Emit} {n : ℕ}, 0 ≤ s →
      chunkPageAux cs ov t src pn fuel s i = some (es, n) →
      ∀ e ∈ es, 0 ≤ e.start := by
  intro fuel
  induction fuel with
  | zero =>
    intro s i es n h0 h
    simp [chunkPageAux_zero] at h
  | succ fuel ih =>
    intro s i es n h0 h
    rcases chunkPageAux_cases h with ⟨-, he, -⟩ | ⟨hlt, es', hrec, hcons⟩
    · subst he
      intro e he
      simp at he
    · subst hcons
      intro e he
      rcases List.mem_cons.mp he with rfl | hmem
      · exact h0
      · have hprog := windowStep_progress t s h1 h2
        exact ih (by omega) hrec e hmem

lemma chunkPageAux_chain_stop {cs ov : ℕ} {t : List Char} {src : String} {pn : ℕ} :
    ∀ {fuel : ℕ} {s : ℤ} {i : ℕ} {es : List Emit} {n : ℕ},
      chunkPageAux cs ov t src pn fuel s i = some (es, n) →
      List.Chain' (fun a b : Emit => b.start = a.stop - (ov : ℤ)) es := by
  intro fuel
  induction fuel with
  | zero =>
    intro s i es n h
    simp [chunkPageAux_zero] at h
  | succ fuel ih =>
    intro s i es n h
    rcases chunkPageAux_cases h with ⟨-, he, -⟩ | ⟨hlt, es', hrec, hcons⟩
    · subst he
      exact List.chain'_nil
    · subst hcons
      rw [List.chain'_cons']
      refine ⟨?_, ih hrec⟩
      intro y hy
      cases es' with
      | nil => simp at hy
      | cons z zs =>
        simp only [List.head?_cons, Option.mem_def, Option.some.injEq] at hy
        subst hy
        exact chunkPageAux_head hrec

lemma chunkPageAux_chain_lt {cs ov : ℕ} (h1 : 1 ≤ cs) (h2 : 2 * ov ≤ cs)
    {t : List Char} {src : String} {pn : ℕ} :
    ∀ {fuel : ℕ} {s : ℤ} {i : ℕ} {es : List Emit} {n : ℕ},
      chunkPageAux cs ov t src pn fuel s i = some (es, n) →
      List.Chain' (fun a b : Emit => a.start < b.start) es := by
  intro fuel
  induction fuel with
  | zero =>
    intro s i es n h
    simp [chunkPageAux_zero] at h
  | succ fuel ih =>
    intro s i es n h
    rcases chunkPageAux_cases h with ⟨-, he, -⟩ | ⟨hlt, es', hrec, hcons⟩
    · subst he
      exact List.chain'_nil
    · subst hcons
      rw [List.chain'_cons']
      refine ⟨?_, ih hrec⟩
      intro y hy
      cases es' with
      | nil => simp at hy
      | cons z zs =>
        simp only [List.head?_cons, Option.mem_def, Option.some.injEq] at hy
        subst hy
        have hz := chunkPageAux_head hrec
        have hprog := windowStep_progress t s h1 h2
        dsimp only
        omega

lemma chunkPageAux_indices {cs ov : ℕ} {t : List Char} {src : String} {pn : ℕ} :
    ∀ {fuel : ℕ} {s : ℤ} {i : ℕ} {es : List Emit} {n : ℕ},
      chunkPageAux cs ov t src pn fuel s i = some (es, n) →
      n = i + es.length ∧
        es.map (fun e => e.chunk.chunk_index) = List.range' i es.length := by
  intro fuel
  induction fuel with
  | zero =>
    intro s i es n h
    simp [chunkPageAux_zero] at h
  | succ fuel ih =>
    intro s i es n h
    rcases chunkPageAux_cases h with ⟨-, he, hn⟩ | ⟨hlt, es', hrec, hcons⟩
    · subst he
      subst hn
      simp
    · subst hcons
      obtain ⟨hn, hmap⟩ := ih hrec
      constructor
      · simp only [List.length_cons]
        omega
      · simp only [List.map_cons, List.length_cons, List.range'_succ]
        rw [hmap]

lemma chunkPageAux_fixed {cs ov : ℕ} {t : List Char} {src : String} {pn : ℕ} {s : ℤ}
    (hfix : (windowStep cs t s).2.1 - (ov : ℤ) = s) (hlt : s < (t.length : ℤ)) :
    ∀ fuel i, chunkPageAux cs ov t src pn fuel s i = none := by
  intro fuel
  induction fuel with
  | zero => intro i; rfl
  | succ fuel ih =>
    intro i
    rw [chunkPageAux_go hlt, hfix, ih (i + 1)]

/-! ### Lemmas about the page loop and `chunk_text` -/

lemma chunkPagesAux_nil (cs ov fuel i : ℕ) :
    chunkPagesAux cs ov fuel [] i = some ([], i) := rfl

lemma chunkPagesAux_cases {cs ov fuel : ℕ} {p : Page} {ps : List Page} {i : ℕ}
    {gs : List (Page × List Emit)} {n : ℕ}
    (h : chunkPagesAux cs ov fuel (p :: ps) i = some (gs, n)) :
    ∃ es i2 gs', chunkPageAux cs ov p.text p.source p.page_number fuel 0 i = some (es, i2) ∧
      chunkPagesAux cs ov fuel ps i2 = some (gs', n) ∧ gs = (p, es) :: gs' := by
  unfold chunkPagesAux at h
  cases hpage : chunkPageAux cs ov p.text p.source p.page_number fuel 0 i with
  | none =>
    rw [hpage] at h
    simp at h
  | some v =>
    obtain ⟨es, i2⟩ := v
    rw [hpage] at h
    dsimp only at h
    cases hrest : chunkPagesAux cs ov fuel ps i2 with
    | none =>
      rw [hrest] at h
      simp at h
    | some w =>
      obtain ⟨gs', i3⟩ := w
      rw [hrest] at h
      simp only [Option.some.injEq, Prod.mk.injEq] at h
      obtain ⟨h1, h2⟩ := h
      subst h2
      exact ⟨es, i2, gs', rfl, hrest, h1.symm⟩

lemma chunkPagesAux_fst {cs ov fuel : ℕ} :
    ∀ {ps : List Page} {i : ℕ} {gs : List (Page × List Emit)} {n : ℕ},
      chunkPagesAux cs ov fuel ps i = some (gs, n) → gs.map Prod.fst = ps := by
  intro ps
  induction ps with
  | nil =>
    intro i gs n h
    rw [chunkPagesAux_nil] at h
    simp only [Option.some.injEq, Prod.mk.injEq] at h
    rw [← h.1]
    rfl
  | cons p ps ih =>
    intro i gs n h
    obtain ⟨es, i2, gs', -, hrest, hgs⟩ := chunkPagesAux_cases h
    subst hgs
    simp only [List.map_cons]
    rw [ih hrest]

lemma chunkPagesAux_groups {cs ov fuel : ℕ} :
    ∀ {ps : List Page} {i : ℕ} {gs : List (Page × List Emit)} {n : ℕ},
      chunkPagesAux cs ov fuel ps i = some (gs, n) →
      ∀ g ∈ gs, ∃ j n2,
        chunkPageAux cs ov g.1.text g.1.source g.1.page_number fuel 0 j = some (g.2, n2) := by
  intro ps
  induction ps with
  | nil =>
    intro i gs n h
    rw [chunkPagesAux_nil] at h
    simp only [Option.some.injEq, Prod.mk.injEq] at h
    rw [← h.1]
    intro g hg
    simp at hg
  | cons p ps ih =>
    intro i gs n h
    obtain ⟨es, i2, gs', hpage, hrest, hgs⟩ := chunkPagesAux_cases h
    subst hgs
    intro g hg
    rcases List.mem_cons.mp hg with rfl | hmem
    · exact ⟨i, i2, hpage⟩
    · exact ih hrest g hmem

lemma chunksOf_nil : chunksOf [] = [] := rfl

lemma chunksOf_cons (p : Page) (es : List Emit) (gs : List (Page × List Emit)) :
    chunksOf ((p, es) :: gs) = es.map Emit.chunk ++ chunksOf gs := rfl

lemma chunkPagesAux_indices {cs ov fuel : ℕ} :
    ∀ {ps : List Page} {i : ℕ} {gs : List (Page × List Emit)} {n : ℕ},
      chunkPagesAux cs ov fuel ps i = some (gs, n) →
      n = i + (chunksOf gs).length ∧
        (chunksOf gs).map Chunk.chunk_index = List.range' i (chunksOf gs).length := by
  intro ps
  induction ps with
  | nil =>
    intro i gs n h
    rw [chunkPagesAux_nil] at h
    simp only [Option.some.injEq, Prod.mk.injEq] at h
    rw [← h.1, ← h.2, chunksOf_nil]
    simp
  | cons p ps ih =>
    intro i gs n h
    obtain ⟨es, i2, gs', hpage, hrest, hgs⟩ := chunkPagesAux_cases h
    subst hgs
    obtain ⟨hpn, hpmap⟩ := chunkPageAux_indices hpage
    obtain ⟨hrn, hrmap⟩ := ih hrest
    rw [chunksOf_cons]
    constructor
    · simp only [List.length_append, List.length_map]
      omega
    · have hcomp : (Chunk.chunk_index ∘ Emit.chunk) = fun e : Emit => e.chunk.chunk_index := rfl
      rw [List.map_append, List.map_map, hrmap, hcomp, hpmap, hpn]
      simp only [List.length_append, List.length_map]
      have := List.range'_append i es.length (chunksOf gs').length 1
      simp only [one_mul, mul_one] at this
      rw [Nat.add_comm es.length (chunksOf gs').length]
      exact this

lemma chunk_text_of_valid {pages : List Page} {cs ov fuel : ℕ}
    {gs : List (Page × List Emit)} {n : ℕ}
    (hv : ov < cs) (hp : chunkPagesAux cs ov fuel pages 0 = some (gs, n)) :
    chunk_text pages cs ov fuel = .ok (some (chunksOf gs)) := by
  unfold chunk_text
  rw [if_neg (by omega), hp]

lemma chunk_text_ok_inv {pages : List Page} {cs ov fuel : ℕ} {chunks : List Chunk}
    (h : chunk_text pages cs ov fuel = .ok (some chunks)) :
    ov < cs ∧ ∃ gs n, chunkPagesAux cs ov fuel pages 0 = some (gs, n) ∧
      chunks = chunksOf gs := by
  unfold chunk_text at h
  by_cases hc : cs ≤ ov
  · rw [if_pos hc] at h
    simp at h
  · rw [if_neg hc] at h
    cases hres : chunkPagesAux cs ov fuel pages 0 with
    | none =>
      rw [hres] at h
      simp at h
    | some v =>
      obtain ⟨gs, n⟩ := v
      rw [hres] at h
      simp only [Except.ok.injEq, Option.some.injEq] at h
      exact ⟨by omega, gs, n, rfl, h.symm⟩

lemma pySlice_sublist (s : List Char) (a b : ℤ) : (pySlice s a b).Sublist s :=
  (List.drop_sublist _ _).trans (List.take_sublist _ _)

lemma no_ws_breakPoint {cand : List Char}
    (h : ∀ c ∈ cand, pyIsSpace c = false) : breakPoint cand = -1 := by
  have hn : rfind cand ['\n'] = -1 := by
    rcases rfindFrom_spec cand ['\n'] cand.length with ⟨he, -⟩ | ⟨m, -, -, ho, -⟩
    · exact he
    · exfalso
      have : '\n' ∈ cand := occursAt_mem ho (by simp)
      exact absurd (h _ this) (by decide)
  have hp : rfind cand ['.', ' '] = -1 := by
    rcases rfindFrom_spec cand ['.', ' '] cand.length with ⟨he, -⟩ | ⟨m, -, -, ho, -⟩
    · exact he
    · exfalso
      have : ' ' ∈ cand := occursAt_mem ho (by simp)
      exact absurd (h _ this) (by decide)
  unfold breakPoint
  rw [hn, hp]
  norm_num

lemma windowStep_no_ws {cs : ℕ} {text : List Char} {start : ℤ}
    (hws : ∀ c ∈ text, pyIsSpace c = false) :
    windowStep cs text start = (pySlice text start (start + (cs : ℤ)), start + (cs : ℤ), false) := by
  have hbp : breakPoint (pySlice text start (start + (cs : ℤ))) = -1 :=
    no_ws_breakPoint fun c hc => hws c (List.Sublist.mem hc (pySlice_sublist _ _ _))
  unfold windowStep
  split
  · rw [hbp, if_neg (by omega)]
  · rfl

lemma pySlice_window_nonempty {t : List Char} {s : ℤ} {cs : ℕ}
    (h0 : 0 ≤ s) (hlt : s < (t.length : ℤ)) (hcs : 1 ≤ cs) :
    pySlice t s (s + (cs : ℤ)) ≠ [] := by
  have hlen : 0 < (pySlice t s (s + (cs : ℤ))).length := by
    rw [pySlice_length]
    have ha : pyIdx t.length s = s.toNat := pyIdx_nonneg_le _ h0 (by omega)
    have hb : s.toNat < pyIdx t.length (s + (cs : ℤ)) := by
      unfold pyIdx
      rw [if_neg (by omega)]
      omega
    omega
  exact List.ne_nil_of_length_pos hlen

lemma overlap_slice {t : List Char} {a b : ℤ} {cs ov : ℕ}
    (h0 : 0 ≤ a) (hab : a + (ov : ℤ) < b) (hb : b ≤ (t.length : ℤ)) (hcs : ov ≤ cs) :
    (pySlice t a b).drop ((pySlice t a b).length - ov) =
      (pySlice t (b - (ov : ℤ)) (b - (ov : ℤ) + (cs : ℤ))).take ov ∧
    ((pySlice t a b).drop ((pySlice t a b).length - ov)).length = ov := by
  have hA : pyIdx t.length a = a.toNat := pyIdx_nonneg_le _ h0 (by omega)
  have hB : pyIdx t.length b = b.toNat := pyIdx_nonneg_le _ (by omega) hb
  have hC : pyIdx t.length (b - (ov : ℤ)) = b.toNat - ov := by
    rw [pyIdx_nonneg_le _ (by omega) (by omega)]
    omega
  have hSE : a.toNat + ov < b.toNat := by omega
  have hEL : b.toNat ≤ t.length := by omega
  have hcand : pySlice t a b = (t.take b.toNat).drop a.toNat := by
    unfold pySlice
    rw [hA, hB]
  have hlen : (pySlice t a b).length = b.toNat - a.toNat := by
    rw [pySlice_length, hA, hB]
  have hsuffix : (pySlice t a b).drop ((pySlice t a b).length - ov) =
      (t.take b.toNat).drop (b.toNat - ov) := by
    rw [hlen, hcand, List.drop_drop]
    congr 1
    omega
  constructor
  · rw [hsuffix]
    have hwin : pySlice t (b - (ov : ℤ)) (b - (ov : ℤ) + (cs : ℤ)) =
        (t.take (pyIdx t.length (b - (ov : ℤ) + (cs : ℤ)))).drop (b.toNat - ov) := by
      unfold pySlice
      rw [hC]
    have hH : b.toNat ≤ pyIdx t.length (b - (ov : ℤ) + (cs : ℤ)) := by
      unfold pyIdx
      rw [if_neg (by omega)]
      omega
    have hmin : (b.toNat - ov + ov) ⊓ pyIdx t.length (b - (ov : ℤ) + (cs : ℤ)) = b.toNat := by
      omega
    rw [hwin, List.take_drop, List.take_take, hmin]
  · rw [hsuffix, List.length_drop, List.length_take]
    omega

lemma chunkPageAux_no_ws {cs ov : ℕ} (hv : ov < cs) {t : List Char} {src : String}
    {pn : ℕ} (hws : ∀ c ∈ t, pyIsSpace c = false) :
    ∀ {fuel : ℕ} {s : ℤ} {i : ℕ} {es : List Emit} {n : ℕ}, 0 ≤ s →
      chunkPageAux cs ov t src pn fuel s i = some (es, n) →
      ∀ e ∈ es, e.chunk.text ≠ [] := by
  intro fuel
  induction fuel with
  | zero =>
    intro s i es n h0 h
    simp [chunkPageAux_zero] at h
  | succ fuel ih =>
    intro s i es n h0 h
    rcases chunkPageAux_cases h with ⟨-, he, -⟩ | ⟨hlt, es', hrec, hcons⟩
    · subst he
      intro e he
      simp at he
    · subst hcons
      have hwnd := @windowStep_no_ws cs t s hws
      intro e he
      rcases List.mem_cons.mp he with rfl | hmem
      · show pyStrip (windowStep cs t s).1 ≠ []
        rw [hwnd]
        dsimp only
        rw [pyStrip_eq_self (fun c hc => hws c (List.Sublist.mem hc (pySlice_sublist _ _ _)))]
        exact pySlice_window_nonempty h0 hlt (by omega)
      · have hnext : (0 : ℤ) ≤ (windowStep cs t s).2.1 - (ov : ℤ) := by
          rw [hwnd]
          dsimp only
          omega
        exact ih hnext hrec e hmem

/-! ### The claims -/

/-- C10: with a valid configuration (`chunk_overlap < chunk_size`),
`chunk_text` on an empty page sequence returns the empty chunk
sequence. -/
theorem c10_empty_input (cs ov fuel : ℕ) (hv : ov < cs) :
    chunk_text [] cs ov fuel = .ok (some []) := by
  have h := chunk_text_of_valid hv (chunkPagesAux_nil cs ov fuel 0)
  rw [h, chunksOf_nil]

/-- Witness for C10 at the default configuration. -/
theorem c10_empty_input_witness : chunk_text [] 1000 200 1 = .ok (some []) :=
  c10_empty_input 1000 200 1 (by norm_num)

/-- C3: `chunk_text` raises the `ValueError` exactly when
`chunk_overlap >= chunk_size`, before any page is processed (the error
does not depend on the pages), and with `chunk_overlap < chunk_size` no
error is ever raised. -/
theorem c3_validation (pages : List Page) (cs ov fuel : ℕ) :
    (cs ≤ ov →
      chunk_text pages cs ov fuel = .error "chunk_overlap must be less than chunk_size") ∧
    (ov < cs → ∃ r, chunk_text pages cs ov fuel = .ok r) := by
  constructor
  · intro h
    unfold chunk_text
    rw [if_pos h]
  · intro h
    unfold chunk_text
    rw [if_neg (by omega)]
    cases hres : chunkPagesAux cs ov fuel pages 0 with
    | none => exact ⟨none, rfl⟩
    | some v =>
      obtain ⟨gs, n⟩ := v
      exact ⟨some (chunksOf gs), rfl⟩

/-- Witness for C3: the P5 instance `chunk_size=100, chunk_overlap=100`
errors, and `chunk_overlap=99` does not. -/
theorem c3_validation_witness :
    chunk_text [] 100 100 3 = .error "chunk_overlap must be less than chunk_size" ∧
    ∃ r, chunk_text [] 100 99 3 = .ok r :=
  ⟨(c3_validation [] 100 100 3).1 (by norm_num), (c3_validation [] 100 99 3).2 (by norm_num)⟩

/-- C1 (the claim is false of the code, which has a genuine
non-termination bug): with `chunk_size = 10`, `chunk_overlap = 8`
(a valid configuration: `0 <= 8 < 10`) and page text `"aaaaaaa\nbbbbb"`,
the first window snaps to the newline (`break_point = 7`,
`end = 8`), and the cursor update `start = end - chunk_overlap` yields
`0` again: `start` does not strictly increase, and the per-page loop
diverges (it returns no result for any amount of fuel). -/
theorem c1_nontermination :
    ((8 : ℕ) ≥ 0 ∧ (8 : ℕ) < 10) ∧
    (windowStep 10 ['a', 'a', 'a', 'a', 'a', 'a', 'a', '\n', 'b', 'b', 'b', 'b', 'b'] 0).2.1
        - (8 : ℤ) = 0 ∧
    ∀ fuel idx,
      chunkPageAux 10 8 ['a', 'a', 'a', 'a', 'a', 'a', 'a', '\n', 'b', 'b', 'b', 'b', 'b']
        "doc.pdf" 1 fuel 0 idx = none := by
  refine ⟨⟨by norm_num, by norm_num⟩, by decide, ?_⟩
  intro fuel idx
  exact chunkPageAux_fixed (by decide) (by decide) fuel idx

/-- C2 is false as stated: with the valid configuration
`chunk_size = 3 > chunk_overlap = 2` and the 2-character page text
`"ab"` (shorter than `chunk_size`), the page loop emits two chunks, not
one (the cursor advances only to `3 - 2 = 1 < 2`). -/
theorem c2_counterexample :
    (['a', 'b'] : List Char).length < 3 ∧ (2 : ℕ) < 3 ∧
    (chunkPageAux 3 2 ['a', 'b'] "doc.pdf" 1 10 0 0).map (fun r => r.1.length) = some 2 := by
  refine ⟨by norm_num, by norm_num, by decide⟩

/-- C2 (amended): a non-empty page whose text length is at most
`chunk_size - chunk_overlap` produces exactly one chunk, whose text is
the whole page text trimmed. -/
theorem c2_single_chunk (cs ov fuel : ℕ) (t : List Char) (src : String) (pn i : ℕ)
    (hv : ov < cs) (h0 : 0 < t.length) (hle : t.length ≤ cs - ov) (hf : 2 ≤ fuel) :
    ∃ e : Emit, chunkPageAux cs ov t src pn fuel 0 i = some ([e], i + 1) ∧
      e.chunk.text = pyStrip t ∧ e.chunk.chunk_index = i ∧
      e.chunk.source = src ∧ e.chunk.page_number = pn := by
  obtain ⟨fuel, rfl⟩ : ∃ k, fuel = k + 2 := ⟨fuel - 2, by omega⟩
  have hlen : t.length ≤ cs := by omega
  have hws : windowStep cs t 0 = (pySlice t 0 ((0 : ℤ) + (cs : ℤ)), (0 : ℤ) + (cs : ℤ), false) := by
    unfold windowStep
    rw [if_neg (by omega)]
  have hslice : pySlice t 0 ((0 : ℤ) + (cs : ℤ)) = t := by
    unfold pySlice
    rw [pyIdx_nonneg_le _ le_rfl (by omega), pyIdx_nonneg_ge _ (by omega) (by omega)]
    simp
  have hstop : chunkPageAux cs ov t src pn (fuel + 1) ((0 : ℤ) + (cs : ℤ) - (ov : ℤ)) (i + 1) =
      some ([], i + 1) := chunkPageAux_stop (by omega)
  have hres : chunkPageAux cs ov t src pn (fuel + 1 + 1) 0 i =
      some ([⟨0, (0 : ℤ) + (cs : ℤ), t, false, ⟨pyStrip t, src, pn, i⟩⟩], i + 1) := by
    rw [chunkPageAux_go (by omega), hws]
    dsimp only
    rw [hstop, hslice]
  exact ⟨_, hres, rfl, rfl, rfl, rfl⟩

/-- Witness for the amended C2: a 3-character page with
`chunk_size = 5`, `chunk_overlap = 2` yields exactly one chunk. -/
theorem c2_single_chunk_witness :
    ∃ e : Emit, chunkPageAux 5 2 ['a', 'b', 'c'] "doc.pdf" 1 4 0 0 = some ([e], 1) ∧
      e.chunk.text = pyStrip ['a', 'b', 'c'] ∧ e.chunk.chunk_index = 0 ∧
      e.chunk.source = "doc.pdf" ∧ e.chunk.page_number = 1 :=
  c2_single_chunk 5 2 4 ['a', 'b', 'c'] "doc.pdf" 1 0 (by norm_num) (by norm_num)
    (by norm_num) (by norm_num)

/-- C4 is false as stated: with the valid configuration
`chunk_size = 3`, `chunk_overlap = 0` and the non-empty page text
`"ab      "` (two letters followed by six spaces), `chunk_text` emits
chunks whose stripped text is empty (the windows `[3:6)` and `[6:9)`
contain only spaces). -/
theorem c4_counterexample :
    (['a', 'b', ' ', ' ', ' ', ' ', ' ', ' '] : List Char) ≠ [] ∧ (0 : ℕ) < 3 ∧
    chunk_text [⟨['a', 'b', ' ', ' ', ' ', ' ', ' ', ' '], "doc.pdf", 1⟩] 3 0 5 =
      .ok (some [⟨['a', 'b'], "doc.pdf", 1, 0⟩, ⟨[], "doc.pdf", 1, 1⟩,
                 ⟨[], "doc.pdf", 1, 2⟩]) := by
  refine ⟨by decide, by norm_num, by rfl⟩

/-- C4 (amended): when every input page's text contains no character of
Python's whitespace set (`pyIsSpace`, the set `str.strip()` removes),
every chunk emitted by `chunk_text` has non-empty text.  (A page may be
non-empty and still yield empty chunks when a whole window falls inside
a whitespace run, as the counterexample shows.) -/
theorem c4_nonempty_chunks (pages : List Page) (cs ov fuel : ℕ) (chunks : List Chunk)
    (hws : ∀ p ∈ pages, ∀ c ∈ p.text, pyIsSpace c = false)
    (h : chunk_text pages cs ov fuel = .ok (some chunks)) :
    ∀ c ∈ chunks, c.text ≠ [] := by
  obtain ⟨hv, gs, n, hgs, rfl⟩ := chunk_text_ok_inv h
  intro c hc
  unfold chunksOf at hc
  rw [List.mem_flatten] at hc
  obtain ⟨l, hl, hcl⟩ := hc
  rw [List.mem_map] at hl
  obtain ⟨g, hg, rfl⟩ := hl
  rw [List.mem_map] at hcl
  obtain ⟨e, he, rfl⟩ := hcl
  obtain ⟨j, n2, hpage⟩ := chunkPagesAux_groups hgs g hg
  have hgmem : g.1 ∈ pages := by
    rw [← chunkPagesAux_fst hgs]
    exact List.mem_map_of_mem Prod.fst hg
  exact chunkPageAux_no_ws hv (hws g.1 hgmem) le_rfl hpage e he

/-- Witness for the amended C4: a whitespace-free page chunked with
`chunk_size = 2`, `chunk_overlap = 1`; its first chunk is non-empty. -/
theorem c4_nonempty_chunks_witness :
    (⟨['a', 'b'], "s", 1, 0⟩ : Chunk).text ≠ [] := by
  refine c4_nonempty_chunks [⟨['a', 'b', 'c', 'd'], "s", 1⟩] 2 1 6
    [⟨['a', 'b'], "s", 1, 0⟩, ⟨['b', 'c'], "s", 1, 1⟩,
     ⟨['c', 'd'], "s", 1, 2⟩, ⟨['d'], "s", 1, 3⟩]
    (by decide) (by rfl) _ (by decide)

/-- C9: every chunk's `source` and `page_number` are copied from the one
page record whose text the chunk's window starts in, and its text is the
trimmed content of a single Python slice of that page's text alone. -/
theorem c9_page_attribution (pages : List Page) (cs ov fuel : ℕ) (chunks : List Chunk)
    (h : chunk_text pages cs ov fuel = .ok (some chunks)) :
    ∀ c ∈ chunks, ∃ p, p ∈ pages ∧ c.source = p.source ∧ c.page_number = p.page_number ∧
      ∃ a b : ℤ, c.text = pyStrip (pySlice p.text a b) := by
  obtain ⟨hv, gs, n, hgs, rfl⟩ := chunk_text_ok_inv h
  intro c hc
  unfold chunksOf at hc
  rw [List.mem_flatten] at hc
  obtain ⟨l, hl, hcl⟩ := hc
  rw [List.mem_map] at hl
  obtain ⟨g, hg, rfl⟩ := hl
  rw [List.mem_map] at hcl
  obtain ⟨e, he, rfl⟩ := hcl
  obtain ⟨j, n2, hpage⟩ := chunkPagesAux_groups hgs g hg
  obtain ⟨-, hstop, hcand, -, hchunk⟩ := chunkPageAux_shape hpage e he
  refine ⟨g.1, ?_, ?_, ?_, e.start, e.stop, ?_⟩
  · rw [← chunkPagesAux_fst hgs]
    exact List.mem_map_of_mem Prod.fst hg
  · rw [hchunk]
  · rw [hchunk]
  · rw [hchunk]
    show pyStrip e.cand = pyStrip (pySlice g.1.text e.start e.stop)
    rw [hcand, windowStep_cand, ← hstop]

/-- Witness for C9 with one page and one chunk. -/
theorem c9_page_attribution_witness :
    ∃ p, p ∈ [(⟨['a', 'b'], "f", 1⟩ : Page)] ∧
      (⟨['a', 'b'], "f", 1, 0⟩ : Chunk).source = p.source ∧
      (⟨['a', 'b'], "f", 1, 0⟩ : Chunk).page_number = p.page_number ∧
      ∃ a b : ℤ, (⟨['a', 'b'], "f", 1, 0⟩ : Chunk).text = pyStrip (pySlice p.text a b) :=
  c9_page_attribution [⟨['a', 'b'], "f", 1⟩] 5 1 3 [⟨['a', 'b'], "f", 1, 0⟩]
    (by rfl) _ (by decide)

/-- C5: for a window with `end < len(text)`, writing `break_point` for
the offset of the last newline-or-". " occurrence in the candidate (`-1`
when absent, the maximum of the two last-occurrence offsets): the
candidate is re-sliced to `text[start : start + break_point + 1]` and
`end` becomes `start + break_point + 1` exactly when
`break_point > chunk_size * 0.5`; otherwise candidate and `end` are
unchanged.  When snapping applies, the snapped candidate's untrimmed
length is exactly `break_point + 1` (the Scenario D count: a newline at
offset 600 in a 1000-wide window gives length 601). -/
theorem c5_boundary_snapping (cs : ℕ) (text : List Char) (start bp : ℤ)
    (h0 : 0 ≤ start) (h1 : start + (cs : ℤ) < (text.length : ℤ))
    (hbp : IsLastBreak (pySlice text start (start + (cs : ℤ))) bp) :
    (2 * bp > (cs : ℤ) →
      windowStep cs text start =
        (pySlice text start (start + bp + 1), start + bp + 1, true) ∧
      ((pySlice text start (start + bp + 1)).length : ℤ) = bp + 1) ∧
    (¬ 2 * bp > (cs : ℤ) →
      windowStep cs text start =
        (pySlice text start (start + (cs : ℤ)), start + (cs : ℤ), false)) := by
  have hcode := breakPoint_isLastBreak (pySlice text start (start + (cs : ℤ)))
  have heq : bp = breakPoint (pySlice text start (start + (cs : ℤ))) :=
    isLastBreak_unique hbp hcode
  subst heq
  constructor
  · intro hgt
    constructor
    · unfold windowStep
      rw [if_pos h1, if_pos hgt]
    · rcases hcode with ⟨he, -⟩ | ⟨hge, hat, -⟩
      · exact absurd hgt (by omega)
      · have hlt : (breakPoint (pySlice text start (start + (cs : ℤ)))).toNat <
            (pySlice text start (start + (cs : ℤ))).length := breakAt_lt_length hat
        rw [pySlice_window_length h0 (by omega)] at hlt
        rw [pySlice_length, pyIdx_nonneg_le _ h0 (by omega),
          pyIdx_nonneg_le _ (by omega) (by omega)]
        omega
  · intro hle
    unfold windowStep
    rw [if_pos h1, if_neg hle]

/-- Witness for C5 at a snapping instance: `chunk_size = 4`, text
`"abc\ndefg"`, newline at offset 3 of the candidate (`2 * 3 > 4`), so
the window snaps to end `4` and the candidate has length `3 + 1`. -/
theorem c5_boundary_snapping_witness :
    windowStep 4 ['a', 'b', 'c', '\n', 'd', 'e', 'f', 'g'] 0 =
      (pySlice ['a', 'b', 'c', '\n', 'd', 'e', 'f', 'g'] 0 (0 + 3 + 1), 0 + 3 + 1, true) ∧
    ((pySlice ['a', 'b', 'c', '\n', 'd', 'e', 'f', 'g'] 0 (0 + 3 + 1)).length : ℤ) = 3 + 1 :=
  (c5_boundary_snapping 4 ['a', 'b', 'c', '\n', 'd', 'e', 'f', 'g'] 0 3 (by norm_num)
    (by decide) (by decide)).1 (by norm_num)

lemma chain'_rel_of_get? {α : Type*} {R : α → α → Prop} :
    ∀ {l : List α}, List.Chain' R l →
      ∀ i a b, l.get? i = some a → l.get? (i + 1) = some b → R a b := by
  intro l
  induction l with
  | nil =>
    intro h i a b ha hb
    simp at ha
  | cons x xs ih =>
    intro h i a b ha hb
    rw [List.chain'_cons'] at h
    obtain ⟨hhead, htail⟩ := h
    cases i with
    | zero =>
      rw [List.get?_cons_succ, List.get?_zero] at hb
      have hax : a = x := by
        rw [List.get?_cons_zero] at ha
        exact (Option.some.inj ha).symm
      subst hax
      exact hhead b hb
    | succ i =>
      rw [List.get?_cons_succ] at ha hb
      exact ih htail i a b ha hb

/-- C6 is false as stated: with the valid configuration `chunk_size = 9`,
`chunk_overlap = 7` and page text `"abcde\nfghi"`, the page loop
terminates, but the successive window starts are `0, -1, 1, 3, 5, 7, 9`:
the first snap moves the cursor to `6 - 7 = -1`, behind its predecessor
`0`, so within-page chunks are not in increasing start-offset order (and
the `-1` window is a Python negative-index slice, which is empty here). -/
theorem c6_counterexample :
    (7 : ℕ) < 9 ∧
    (chunkPageAux 9 7 ['a', 'b', 'c', 'd', 'e', '\n', 'f', 'g', 'h', 'i']
        "doc.pdf" 1 20 0 0).map (fun r => r.1.map Emit.start) =
      some [0, -1, 1, 3, 5, 7, 9] ∧
    ¬ List.Chain' (fun a b : ℤ => a < b) [0, -1, 1, 3, 5, 7, 9] := by
  refine ⟨by norm_num, by decide, ?_⟩
  intro h
  have := chain'_rel_of_get? h 0 0 (-1) rfl rfl
  omega

/-- C6 (amended): when additionally `2 * chunk_overlap <= chunk_size`,
every terminating run satisfies the claim: the output of `chunk_text` is
the concatenation, in input page order, of the per-page chunk lists; its
`chunk_index` values are exactly `0, ..., N-1` in output order (one
global counter across pages); and within each page the window starts
strictly increase. -/
theorem c6_ordering (pages : List Page) (cs ov fuel : ℕ)
    (gs : List (Page × List Emit)) (n : ℕ)
    (hv : ov < cs) (h2 : 2 * ov ≤ cs)
    (hs : chunkPagesAux cs ov fuel pages 0 = some (gs, n)) :
    chunk_text pages cs ov fuel = .ok (some (chunksOf gs)) ∧
    (chunksOf gs).map Chunk.chunk_index = List.range (chunksOf gs).length ∧
    gs.map Prod.fst = pages ∧
    ∀ g ∈ gs, List.Chain' (fun a b : Emit => a.start < b.start) g.2 := by
  refine ⟨chunk_text_of_valid hv hs, ?_, chunkPagesAux_fst hs, ?_⟩
  · obtain ⟨-, hmap⟩ := chunkPagesAux_indices hs
    rw [hmap, List.range_eq_range']
  · intro g hg
    obtain ⟨j, n2, hpage⟩ := chunkPagesAux_groups hs g hg
    exact chunkPageAux_chain_lt (by omega) h2 hpage


/-- Witness for the amended C6: two pages, three chunks, indices
`0, 1, 2` in output order, page order preserved, and strictly increasing
window starts within each page. -/
theorem c6_ordering_witness :
    chunk_text pagesW 3 1 5 = .ok (some (chunksOf groupsW)) ∧
    (chunksOf groupsW).map Chunk.chunk_index = List.range (chunksOf groupsW).length ∧
    groupsW.map Prod.fst = pagesW ∧
    ∀ g ∈ groupsW, List.Chain' (fun a b : Emit => a.start < b.start) g.2 :=
  c6_ordering pagesW 3 1 5 groupsW 3 (by norm_num) (by norm_num) (by decide)

/-- C7 is false as stated: with the valid configuration `chunk_size = 5`,
`chunk_overlap = 4` and page text `"abcdefgh"`, the chunks starting at
offsets 4 and 5 are consecutive and neither is the last of the page; the
earlier candidate is `"efgh"` (its window was clipped at the page end),
whose 4-character suffix `"efgh"` does not coincide with the next
window's 4-character prefix `"fgh"` — they share only 3 characters, not
`chunk_overlap = 4`. -/
theorem c7_counterexample :
    (4 : ℕ) < 5 ∧
    (chunkPageAux 5 4 ['a', 'b', 'c', 'd', 'e', 'f', 'g', 'h'] "doc.pdf" 1 12 0 0).map
        (fun r => (r.1.get? 4, r.1.get? 5, r.1.get? 6)) =
      some (some ⟨4, 9, ['e', 'f', 'g', 'h'], false, ⟨['e', 'f', 'g', 'h'], "doc.pdf", 1, 4⟩⟩,
            some ⟨5, 10, ['f', 'g', 'h'], false, ⟨['f', 'g', 'h'], "doc.pdf", 1, 5⟩⟩,
            some ⟨6, 11, ['g', 'h'], false, ⟨['g', 'h'], "doc.pdf", 1, 6⟩⟩) ∧
    ¬ ((['e', 'f', 'g', 'h'] : List Char).drop ((['e', 'f', 'g', 'h'] : List Char).length - 4) =
          (pySlice ['a', 'b', 'c', 'd', 'e', 'f', 'g', 'h'] 5 (5 + 5)).take 4 ∧
        ((['e', 'f', 'g', 'h'] : List Char).drop
          ((['e', 'f', 'g', 'h'] : List Char).length - 4)).length = 4) := by
  refine ⟨by norm_num, by decide, by decide⟩

/-- C7 (amended): when additionally `2 * chunk_overlap <= chunk_size`,
a terminating page run satisfies the claim: every consecutive pair of
chunks has `start = previous post-snapping end - chunk_overlap`, and
when neither of two consecutive chunks is the last of the page, the
`chunk_overlap`-character suffix of the earlier chunk's untrimmed
candidate equals the `chunk_overlap`-character prefix of the next
chunk's window, with exactly `chunk_overlap` shared characters. -/
theorem c7_overlap (cs ov fuel : ℕ) (t : List Char) (src : String) (pn i0 n : ℕ)
    (es : List Emit) (hv : ov < cs) (h2 : 2 * ov ≤ cs)
    (hs : chunkPageAux cs ov t src pn fuel 0 i0 = some (es, n)) :
    List.Chain' (fun a b : Emit => b.start = a.stop - (ov : ℤ)) es ∧
    ∀ i e1 e2 e3, es.get? i = some e1 → es.get? (i + 1) = some e2 →
      es.get? (i + 2) = some e3 →
      e1.cand.drop (e1.cand.length - ov) =
        (pySlice t e2.start (e2.start + (cs : ℤ))).take ov ∧
      (e1.cand.drop (e1.cand.length - ov)).length = ov := by
  have hchain := chunkPageAux_chain_stop hs
  refine ⟨hchain, ?_⟩
  intro i e1 e2 e3 hg1 hg2 hg3
  have hm1 : e1 ∈ es := List.get?_mem hg1
  have hm2 : e2 ∈ es := List.get?_mem hg2
  have hm3 : e3 ∈ es := List.get?_mem hg3
  obtain ⟨hlt1, hstop1, hcand1, hsnap1, -⟩ := chunkPageAux_shape hs e1 hm1
  obtain ⟨hlt2, hstop2, -, hsnap2, -⟩ := chunkPageAux_shape hs e2 hm2
  obtain ⟨hlt3, -, -, -, -⟩ := chunkPageAux_shape hs e3 hm3
  have hn1 : 0 ≤ e1.start := chunkPageAux_nonneg (by omega) h2 le_rfl hs e1 hm1
  have hrel12 : e2.start = e1.stop - (ov : ℤ) := chain'_rel_of_get? hchain i e1 e2 hg1 hg2
  have hrel23 : e3.start = e2.stop - (ov : ℤ) := chain'_rel_of_get? hchain (i + 1) e2 e3 hg2 hg3
  have hstople : e1.stop ≤ (t.length : ℤ) := by
    by_contra hgt
    push_neg at hgt
    have hsn1 : (windowStep cs t e1.start).2.2 = false := by
      cases hb : (windowStep cs t e1.start).2.2
      · rfl
      · exfalso
        obtain ⟨-, -, hle'⟩ := windowStep_snapped hn1 hb
        obtain ⟨hlt', -, -⟩ := windowStep_snapped hn1 hb
        rw [hstop1] at hgt
        omega
    have he1 : e1.stop = e1.start + (cs : ℤ) := by
      rw [hstop1, windowStep_not_snapped hsn1]
    have hn2 : 0 ≤ e2.start := by omega
    have hsn2 : (windowStep cs t e2.start).2.2 = false := by
      cases hb : (windowStep cs t e2.start).2.2
      · rfl
      · exfalso
        obtain ⟨hlt', -, -⟩ := windowStep_snapped hn2 hb
        omega
    have he2 : e2.stop = e2.start + (cs : ℤ) := by
      rw [hstop2, windowStep_not_snapped hsn2]
    omega
  have hprog : e1.start + (ov : ℤ) < e1.stop := by
    rw [hstop1]
    exact windowStep_progress t e1.start (by omega) h2
  have hcand_eq : e1.cand = pySlice t e1.start e1.stop := by
    rw [hcand1, windowStep_cand, ← hstop1]
  have hmain := @overlap_slice t e1.start e1.stop cs ov hn1 hprog hstople (by omega)
  rw [← hcand_eq, ← hrel12] at hmain
  exact hmain

/-- Witness for the amended C7: `chunk_size = 3`, `chunk_overlap = 1` on
`"abcdefg"`; the first two chunks share exactly the one-character
overlap `"c"`. -/
theorem c7_overlap_witness :
    (⟨0, 3, ['a', 'b', 'c'], false, ⟨['a', 'b', 'c'], "s", 1, 0⟩⟩ : Emit).cand.drop
        ((⟨0, 3, ['a', 'b', 'c'], false, ⟨['a', 'b', 'c'], "s", 1, 0⟩⟩ : Emit).cand.length - 1) =
      (pySlice ['a', 'b', 'c', 'd', 'e', 'f', 'g']
        (⟨2, 5, ['c', 'd', 'e'], false, ⟨['c', 'd', 'e'], "s", 1, 1⟩⟩ : Emit).start
        ((⟨2, 5, ['c', 'd', 'e'], false, ⟨['c', 'd', 'e'], "s", 1, 1⟩⟩ : Emit).start + 3)).take 1 ∧
    ((⟨0, 3, ['a', 'b', 'c'], false, ⟨['a', 'b', 'c'], "s", 1, 0⟩⟩ : Emit).cand.drop
        ((⟨0, 3, ['a', 'b', 'c'], false, ⟨['a', 'b', 'c'], "s", 1, 0⟩⟩ : Emit).cand.length - 1)).length = 1 :=
  (c7_overlap 3 1 6 ['a', 'b', 'c', 'd', 'e', 'f', 'g'] "s" 1 0 4 emitsW
    (by norm_num) (by norm_num) (by decide)).2 0 _ _
    ⟨4, 7, ['e', 'f', 'g'], false, ⟨['e', 'f', 'g'], "s", 1, 2⟩⟩
    (by decide) (by decide) (by decide)

/-- C8 is false as stated: with `chunk_size = 5`, `chunk_overlap = 2`
and the ten-character page text `"aaaaaaaaaa"`, no chunk is snapped, and
the third chunk (start 6) has untrimmed length 4, not `chunk_size = 5`,
although it is not the last chunk of the page (a fourth chunk starts at
offset 9): its window `[6:11)` overruns the page end. -/
theorem c8_counterexample :
    (2 : ℕ) < 5 ∧
    (chunkPageAux 5 2 ['a', 'a', 'a', 'a', 'a', 'a', 'a', 'a', 'a', 'a']
        "doc.pdf" 1 6 0 0).map
        (fun r => r.1.map (fun e => (e.start, e.cand.length, e.snapped))) =
      some [(0, 5, false), (3, 5, false), (6, 4, false), (9, 1, false)] ∧
    (4 : ℕ) ≠ 5 := by
  refine ⟨by norm_num, by decide, by norm_num⟩

/-- C8 (amended): when additionally `2 * chunk_overlap <= chunk_size`,
in a terminating page run every unsnapped chunk's untrimmed candidate
has length exactly `chunk_size` whenever its window fits inside the page
text (`start + chunk_size <= len`), and length `len - start` (shorter
than `chunk_size`) when the window overruns the page end — which, as the
counterexample shows, can also happen at a chunk that is not the last of
its page. -/
theorem c8_size_bound (cs ov fuel : ℕ) (t : List Char) (src : String) (pn i0 n : ℕ)
    (es : List Emit) (hv : ov < cs) (h2 : 2 * ov ≤ cs)
    (hs : chunkPageAux cs ov t src pn fuel 0 i0 = some (es, n)) :
    ∀ e ∈ es, e.snapped = false →
      (e.start + (cs : ℤ) ≤ (t.length : ℤ) → e.cand.length = cs) ∧
      ((t.length : ℤ) < e.start + (cs : ℤ) →
        (e.cand.length : ℤ) = (t.length : ℤ) - e.start) := by
  intro e he hsnap
  obtain ⟨hlt, hstop, hcand, hsnapw, -⟩ := chunkPageAux_shape hs e he
  have hn : 0 ≤ e.start := chunkPageAux_nonneg (by omega) h2 le_rfl hs e he
  have hw : (windowStep cs t e.start).2.2 = false := by
    rw [← hsnapw]
    exact hsnap
  have hstop' : e.stop = e.start + (cs : ℤ) := by
    rw [hstop, windowStep_not_snapped hw]
  have hcand' : e.cand = pySlice t e.start (e.start + (cs : ℤ)) := by
    rw [hcand, windowStep_cand, ← hstop, hstop']
  constructor
  · intro hfit
    rw [hcand']
    exact pySlice_window_length hn hfit
  · intro hover
    rw [hcand', pySlice_length, pyIdx_nonneg_le _ hn (by omega),
      pyIdx_nonneg_ge _ (by omega) (by omega)]
    omega

/-- Witness for the amended C8: on `"abcde"` with `chunk_size = 3`,
`chunk_overlap = 1`, the unsnapped chunk starting at offset 4 overruns
the page end and has untrimmed length `5 - 4 = 1`. -/
theorem c8_size_bound_witness :
    (((⟨4, 7, ['e'], false, ⟨['e'], "s", 1, 2⟩⟩ : Emit).cand.length : ℤ) =
      ((['a', 'b', 'c', 'd', 'e'] : List Char).length : ℤ) -
        (⟨4, 7, ['e'], false, ⟨['e'], "s", 1, 2⟩⟩ : Emit).start) :=
  ((c8_size_bound 3 1 6 ['a', 'b', 'c', 'd', 'e'] "s" 1 0 3 emitsV
    (by norm_num) (by norm_num) (by decide)) _ (by decide) (by decide)).2 (by decide)
